import Mathlib

/-!
Verification of the metalang99 compile-time term evaluator (the stub under
src/metalang99).  The preprocessed stub keeps the library's documentation
comments but strips the macro bodies, so the evaluation engine itself is
modelled from the specification (spec.md together with the algorithm
comments retained in stub_expanded.c); the client macros of main.c and
stub.c are translated directly from their source.
-/

namespace Metalang99

/-- Modelled from the spec: the missing engine's data atoms.  A reduced term
is an ordered sequence of opaque tokens; a parenthesised group `(x, y, z)`
(tuple, choice value or closure) is itself a single atom holding its
comma-separated items. -/
inductive Atom where
  | num : Nat → Atom
  | name : String → Atom
  | tup : List Atom → Atom

/-- Modelled from the spec: the missing engine's term language.
`v` wraps an already-formed atom sequence (the literal constructor);
`terms2` juxtaposes two terms (binary `ML99_TERMS`); `call` invokes an
operation with an argument term to be evaluated first; `callUneval` invokes
it with already-final arguments; `appl` applies one argument group to a
function term (partial application); `matchT` and `matchWithArgsT` are the
choice dispatch forms `ML99_match` / `ML99_matchWithArgs`; `fatal` is the
diagnostics primitive. -/
inductive Term where
  | v : List Atom → Term
  | terms2 : Term → Term → Term
  | call : String → Term → Term
  | callUneval : String → List Atom → Term
  | appl : Term → Term → Term
  | matchT : Term → Term → Term
  | matchWithArgsT : Term → Term → Term → Term
  | fatal : String → String → Term

/-- Modelled from the spec: per-operation static metadata — the declared
arity specifier `<f>_ARITY` and the substitution body `<f>_IMPL`, which
receives fully reduced arguments and expands to a further term. -/
structure Op where
  arity : Nat
  impl : List Atom → Term

/-- Modelled from the spec: the process-wide table of declared operations;
`none` means the name is not a declared operation (a host-level undefined
reference when invoked). -/
abbrev Env := String → Option Op

/-- Modelled from the spec: the ways evaluation can fail to produce a
reduced sequence: exhausting the expansion budget, invoking an undeclared
operation, applying a non-function, dispatching on a malformed choice
value, or hitting the fatal-error primitive. -/
inductive Err where
  | budget : Err
  | undefinedOp : String → Err
  | malformedAppl : Err
  | malformedMatch : Err
  | fatalErr : String → String → Err

/-- Modelled from the spec: the engine's expansion budget, `1024 * 16`
(roughly `2 ^ 14`) re-scans per top-level evaluation. -/
def ML99_REC_MAX : Nat := 16384

/-- Modelled from the spec: a closure literal `(arity, f, env...)` — the
remaining arity, the underlying operation name, and the captured argument
environment, packed as one parenthesised atom. -/
def closA (arity : Nat) (f : String) (captured : List Atom) : Atom :=
  .tup (.num arity :: .name f :: captured)

/-- Modelled from the spec: invoking a declared operation on reduced
arguments hands the expansion `impl args` to the continuation `fire`
(the next re-scan); an undeclared name is an undefined-reference failure. -/
def callOp (env : Env) (fire : Term → Except Err (List Atom))
    (op : String) (args : List Atom) : Except Err (List Atom) :=
  match env op with
  | none => .error (.undefinedOp op)
  | some o => fire (o.impl args)

/-- Modelled from the spec: the `ML99_appl` algorithm.  If `f` is a bare
operation name of arity 1 it fires at once; with greater arity a closure
`(arity - 1, f, args)` is built.  Applying to an existing closure appends
the argument group to the environment and decrements the arity; at arity 1
the operation fires with the whole environment plus the final group. -/
def applyV (env : Env) (fire : Term → Except Err (List Atom))
    (fv av : List Atom) : Except Err (List Atom) :=
  match fv with
  | [.name s] =>
    match env s with
    | none => .error (.undefinedOp s)
    | some o =>
      if o.arity = 1 then fire (o.impl av)
      else .ok [closA (o.arity - 1) s av]
  | [.tup (.num a :: .name s :: captured)] =>
    if a = 1 then callOp env fire s (captured ++ av)
    else .ok [closA (a - 1) s (captured ++ av)]
  | _ => .error .malformedAppl

/-- Modelled from the spec: one re-scan of the engine.  It reduces a term
left to right; whenever an operation actually fires, the resulting
expansion is delegated to the continuation `fire` (the next stage of the
expansion chain).  Dispatch concatenates the handler prefix with the tag
and invokes the resulting name with the payload (plus the extra group for
`matchWithArgsT`). -/
def evalStage (env : Env) (fire : Term → Except Err (List Atom)) :
    Term → Except Err (List Atom)
  | .v as => .ok as
  | .terms2 a b => do
    let x ← evalStage env fire a
    let y ← evalStage env fire b
    .ok (x ++ y)
  | .call op a => do
    let x ← evalStage env fire a
    callOp env fire op x
  | .callUneval op as => callOp env fire op as
  | .appl f a => do
    let fv ← evalStage env fire f
    let av ← evalStage env fire a
    applyV env fire fv av
  | .matchT c p => do
    let cv ← evalStage env fire c
    let pv ← evalStage env fire p
    match cv, pv with
    | [.tup (.name tag :: data)], [.name pre] =>
      callOp env fire (pre ++ tag) data
    | _, _ => .error .malformedMatch
  | .matchWithArgsT c p e => do
    let cv ← evalStage env fire c
    let pv ← evalStage env fire p
    let ev ← evalStage env fire e
    match cv, pv with
    | [.tup (.name tag :: data)], [.name pre] =>
      callOp env fire (pre ++ tag) (data ++ ev)
    | _, _ => .error .malformedMatch
  | .fatal op msg => .error (.fatalErr op msg)

/-- Modelled from the spec: the full bounded evaluator.  `fuel` counts the
remaining expansion stages; every operation firing moves to the next stage,
and a program still unreduced when the budget runs out fails with a budget
error. -/
def evalT (env : Env) : Nat → Term → Except Err (List Atom)
  | 0, t => evalStage env (fun _ => .error .budget) t
  | fuel + 1, t => evalStage env (evalT env fuel) t

/-- Modelled from the spec: the top-level evaluation entry point
(`ML99_EVAL`), which runs the engine with its full expansion budget. -/
def ML99_EVAL (env : Env) (t : Term) : Except Err (List Atom) :=
  evalT env ML99_REC_MAX t

/-- Modelled from the spec: supplying the argument groups `gs` to `t` one at
a time, through nested `ML99_appl` applications. -/
def applChain (t : Term) (gs : List (List Atom)) : Term :=
  gs.foldl (fun acc g => Term.appl acc (.v g)) t

/-- Helper: the empty environment with no declared operations. -/
def envEmpty : Env := fun _ => none

theorem applChain_run (env : Env) (fire : Term → Except Err (List Atom))
    (F : String) (o : Op) (hF : env F = some o) :
    ∀ (gs : List (List Atom)) (t : Term) (a : Nat) (captured : List Atom),
      evalStage env fire t = .ok [closA a F captured] → gs.length = a → 1 ≤ a →
      evalStage env fire (applChain t gs) = fire (o.impl (captured ++ gs.flatten)) := by
  intro gs
  induction gs with
  | nil =>
    intro t a captured _ hlen ha
    simp at hlen
    omega
  | cons g gs2 ih =>
    intro t a captured ht hlen ha
    cases gs2 with
    | nil =>
      have ha1 : a = 1 := by simpa using hlen.symm
      subst ha1
      simp [applChain, evalStage, ht, applyV, closA, callOp, hF, bind, Except.bind]
    | cons g2 gs3 =>
      have ha2 : a = gs3.length + 2 := by simpa using hlen.symm
      have step1 : evalStage env fire (.appl t (.v g)) = .ok [closA (a - 1) F (captured ++ g)] := by
        have hne : ¬ a = 1 := by omega
        simp [evalStage, ht, applyV, closA, hne, bind, Except.bind]
      have hfold : applChain t (g :: g2 :: gs3) = applChain (.appl t (.v g)) (g2 :: gs3) := by
        simp [applChain]
      rw [hfold, ih (.appl t (.v g)) (a - 1) (captured ++ g) step1 (by simp; omega) (by omega)]
      simp

/-- C1: for every operation F with declared arity N ≥ 1 and every sequence
of N argument groups, applying the groups one at a time through N nested
applications fully reduces to the same result as invoking F once with all
the groups' arguments supplied together. -/
theorem C1_partial_application_associates (env : Env) (F : String) (o : Op)
    (hF : env F = some o) (h1 : 1 ≤ o.arity) (gs : List (List Atom))
    (hlen : gs.length = o.arity) (fuel : Nat) :
    evalT env fuel (applChain (.v [.name F]) gs) =
      evalT env fuel (.callUneval F gs.flatten) := by
  have key : ∀ fire, evalStage env fire (applChain (.v [.name F]) gs) =
      callOp env fire F gs.flatten := by
    intro fire
    cases gs with
    | nil => simp at hlen; omega
    | cons g gs2 =>
      cases gs2 with
      | nil =>
        have ha : o.arity = 1 := by simp at hlen; omega
        simp [applChain, evalStage, applyV, hF, ha, callOp, bind, Except.bind]
      | cons g2 gs3 =>
        have ha2 : o.arity = gs3.length + 2 := by simp at hlen; omega
        have step1 : evalStage env fire (.appl (.v [.name F]) (.v g)) =
            .ok [closA (o.arity - 1) F g] := by
          have hne : ¬ o.arity = 1 := by omega
          simp [evalStage, applyV, hF, hne, bind, Except.bind]
        have hfold : applChain (.v [.name F]) (g :: g2 :: gs3) =
            applChain (.appl (.v [.name F]) (.v g)) (g2 :: gs3) := by
          simp [applChain]
        rw [hfold,
          applChain_run env fire F o hF (g2 :: gs3) _ (o.arity - 1) g step1
            (by simp; omega) (by omega)]
        simp [callOp, hF]
  cases fuel with
  | zero =>
    show evalStage env _ _ = evalStage env _ _
    rw [key]
    rfl
  | succ n =>
    show evalStage env _ _ = evalStage env _ _
    rw [key]
    rfl

/-- Helper environment for the C1 witness: one binary operation. -/
def envW1 : Env := fun s =>
  if s = ("F") then some ⟨2, fun as => Term.v as⟩ else none

/-- C1 witness: a concrete arity-2 operation applied in two groups equals
its one-shot invocation. -/
theorem C1_witness :
    evalT envW1 3 (applChain (.v [.name ("F")]) [[.num 1], [.num 2]]) =
      evalT envW1 3 (.callUneval ("F") ([[Atom.num 1], [Atom.num 2]] : List (List Atom)).flatten) :=
  C1_partial_application_associates envW1 ("F") ⟨2, fun as => Term.v as⟩ rfl
    (by decide) [[.num 1], [.num 2]] rfl 3

/-- C2: for every choice value `choice(T, payload)` and handler prefix H
such that the operation `H ++ T` is declared, matching invokes exactly that
handler with exactly the payload terms, whatever else the environment
declares. -/
theorem C2_match_invokes_declared_handler (env : Env) (pre tag : String)
    (payload : List Atom) (o : Op) (h : env (pre ++ tag) = some o) (fuel : Nat) :
    evalT env (fuel + 1)
        (.matchT (.v [.tup (.name tag :: payload)]) (.v [.name pre])) =
      evalT env fuel (o.impl payload) := by
  simp [evalT, evalStage, callOp, h, bind, Except.bind]

/-- Helper environment for the dispatch witnesses: a single handler
`MATCH_B` is declared. -/
def envW2 : Env := fun s =>
  if s = ("MATCH_B") then some ⟨1, fun as => Term.v as⟩ else none

/-- C2 witness: matching `choice(B, 7)` against the `MATCH_` family invokes
`MATCH_B` with payload `7`. -/
theorem C2_witness :
    evalT envW2 1 (.matchT (.v [.tup [.name ("B"), .num 7]]) (.v [.name ("MATCH_")])) =
      evalT envW2 0 (Term.v [.num 7]) :=
  C2_match_invokes_declared_handler envW2 ("MATCH_") ("B") [.num 7]
    ⟨1, fun as => Term.v as⟩ rfl 0

/-- C3: dispatch with extra arguments invokes the concatenated handler with
the payload followed by the extra group, the same extra group for every
branch, including the empty group. -/
theorem C3_match_with_args_appends_extra (env : Env) (pre tag : String)
    (payload extra : List Atom) (o : Op) (h : env (pre ++ tag) = some o)
    (fuel : Nat) :
    evalT env (fuel + 1)
        (.matchWithArgsT (.v [.tup (.name tag :: payload)]) (.v [.name pre])
          (.v extra)) =
      evalT env fuel (o.impl (payload ++ extra)) := by
  simp [evalT, evalStage, callOp, h, bind, Except.bind]

/-- C3 witness: matching with an extra group appends it to the payload, and
with the empty group passes the payload alone. -/
theorem C3_witness :
    evalT envW2 1 (.matchWithArgsT (.v [.tup [.name ("B"), .num 7]])
        (.v [.name ("MATCH_")]) (.v [.num 8, .num 9])) =
      evalT envW2 0 (Term.v [.num 7, .num 8, .num 9]) :=
  C3_match_with_args_appends_extra envW2 ("MATCH_") ("B") [.num 7]
    [.num 8, .num 9] ⟨1, fun as => Term.v as⟩ rfl 0

/-- C4: evaluation is the identity on already-reduced terms — evaluating a
wrapped literal sequence returns exactly that sequence, and re-evaluating
the (wrapped) output of any successful evaluation returns it unchanged. -/
theorem C4_literal_round_trip (env : Env) (fuel : Nat) :
    (∀ x : List Atom, evalT env fuel (.v x) = .ok x) ∧
    (∀ (t : Term) (out : List Atom) (fuel2 : Nat),
      evalT env fuel t = .ok out → evalT env fuel2 (.v out) = .ok out) := by
  constructor
  · intro x
    cases fuel <;> rfl
  · intro t out fuel2 _
    cases fuel2 <;> rfl

/-- C4 witness: a concrete literal sequence round-trips, and re-evaluating
the output of a successful evaluation leaves it unchanged. -/
theorem C4_witness :
    evalT envEmpty 2 (.v [Atom.num 1, Atom.name ("x")]) = .ok [Atom.num 1, Atom.name ("x")] :=
  (C4_literal_round_trip envEmpty 0).2 (.v [Atom.num 1, Atom.name ("x")])
    [Atom.num 1, Atom.name ("x")] 2 rfl

/-- C8: matching a choice value against a handler family with no declared
handler for its tag fails with an undefined-reference error and never
reduces to a successful (in particular empty) result. -/
theorem C8_match_missing_handler_fails (env : Env) (pre tag : String)
    (payload : List Atom) (h : env (pre ++ tag) = none) (fuel : Nat) :
    evalT env fuel (.matchT (.v [.tup (.name tag :: payload)]) (.v [.name pre])) =
        .error (.undefinedOp (pre ++ tag)) ∧
    ∀ out : List Atom,
      evalT env fuel (.matchT (.v [.tup (.name tag :: payload)]) (.v [.name pre])) ≠
        .ok out := by
  have he : evalT env fuel
      (.matchT (.v [.tup (.name tag :: payload)]) (.v [.name pre])) =
      .error (.undefinedOp (pre ++ tag)) := by
    cases fuel <;> simp [evalT, evalStage, callOp, h, bind, Except.bind]
  exact ⟨he, fun out => by rw [he]; simp⟩

/-- C8 witness: with only `MATCH_B` declared, matching `choice(A, 1)`
against the `MATCH_` family is an undefined-reference failure. -/
theorem C8_witness :
    evalT envW2 5 (.matchT (.v [.tup [.name ("A"), .num 1]]) (.v [.name ("MATCH_")])) =
      .error (.undefinedOp ("MATCH_A")) :=
  (C8_match_missing_handler_fails envW2 ("MATCH_") ("A") [.num 1] rfl 5).1

/-- Choice constructor `leaf(x)` from main.c: `ML99_choice(v(leaf), x)`, a
tagged value with tag `leaf` and the number as payload. -/
def leafV (n : Nat) : Atom := .tup [.name ("leaf"), .num n]

/-- Choice constructor `node(lhs, data, rhs)` from main.c:
`ML99_choice(v(node), lhs, data, rhs)`. -/
def nodeV (lhs : Atom) (data : Nat) (rhs : Atom) : Atom :=
  .tup [.name ("node"), lhs, .num data, rhs]

/-- The 7-node balanced tree `TREE` from main.c, with values 1..7. -/
def TREE : Atom :=
  nodeV (nodeV (leafV 1) 2 (leafV 3)) 4 (nodeV (leafV 5) 6 (leafV 7))

/-- Matcher `sumTree(tree) = ML99_match(tree, v(sumTree_))` from main.c. -/
def sumTree (tree : Term) : Term := .matchT tree (.v [.name ("sumTree_")])

/-- Handler `sumTree_leaf_IMPL(x) = v(x)` from main.c. -/
def sumTreeLeafImpl : List Atom → Term
  | [x] => .v [x]
  | _ => .fatal ("sumTree_leaf") ("expected one argument")

/-- Handler `sumTree_node_IMPL(lhs, data, rhs) =
ML99_add3(sumTree(v(lhs)), v(data), sumTree(v(rhs)))` from main.c. -/
def sumTreeNodeImpl : List Atom → Term
  | [lhs, data, rhs] =>
    .call ("ML99_add3")
      (.terms2 (sumTree (.v [lhs])) (.terms2 (.v [data]) (sumTree (.v [rhs]))))
  | _ => .fatal ("sumTree_node") ("expected three arguments")

/-- Modelled from the spec: `ML99_add3` computes `x + y + z` on the bounded
naturals `[0; 255]`. -/
def add3Impl : List Atom → Term
  | [.num x, .num y, .num z] => .v [.num ((x + y + z) % 256)]
  | _ => .fatal ("ML99_add3") ("expected three naturals")

/-- The operation table declared by main.c: the two `sumTree_` handlers and
the numeric library's `ML99_add3`. -/
def env5 : Env := fun s =>
  if s = ("sumTree_leaf") then some ⟨1, sumTreeLeafImpl⟩
  else if s = ("sumTree_node") then some ⟨3, sumTreeNodeImpl⟩
  else if s = ("ML99_add3") then some ⟨3, add3Impl⟩
  else none

/-- C5: matching the 7-node balanced tree with values 1..7 against the
`sumTree_` handler family evaluates, under the full expansion budget, to
the literal 28 (as asserted by `ML99_ASSERT_EQ(sumTree(TREE), v(28))`). -/
theorem C5_sumTree_evaluates_to_28 :
    ML99_EVAL env5 (sumTree (.v [TREE])) = .ok [.num 28] := by
  rfl

/-- Modelled from the spec: the maximum value of a bounded natural number,
currently 255 (`ML99_NAT_MAX`). -/
def ML99_NAT_MAX : Nat := 255

/-- Modelled from the spec: `ML99_inc` computes `x + 1`; if `x` is
`ML99_NAT_MAX` the result is 0. -/
def ML99_inc (x : Nat) : Nat := if x = ML99_NAT_MAX then 0 else x + 1

/-- Modelled from the spec: `ML99_dec` computes `x - 1`; if `x` is 0 the
result is `ML99_NAT_MAX`. -/
def ML99_dec (x : Nat) : Nat := if x = 0 then ML99_NAT_MAX else x - 1

/-- C10: the numeric library's naturals live in `[0, 255]` with
`ML99_NAT_MAX = 255`, and successor/predecessor wrap around modulo 256:
incrementing 255 yields 0 and decrementing 0 yields 255, and both
operations stay inside the interval. -/
theorem C10_nat_bounded_wraparound (x : Nat) (hx : x ≤ ML99_NAT_MAX) :
    ML99_NAT_MAX = 255 ∧
    ML99_inc ML99_NAT_MAX = 0 ∧ ML99_dec 0 = ML99_NAT_MAX ∧
    ML99_inc x = (x + 1) % 256 ∧ ML99_dec x = (x + 255) % 256 ∧
    ML99_inc x ≤ ML99_NAT_MAX ∧ ML99_dec x ≤ ML99_NAT_MAX := by
  refine ⟨rfl, by simp [ML99_inc, ML99_NAT_MAX], by simp [ML99_dec, ML99_NAT_MAX],
    ?_, ?_, ?_, ?_⟩ <;>
      simp only [ML99_inc, ML99_dec, ML99_NAT_MAX] at hx ⊢ <;> split <;> omega

/-- C10 witness: the wraparound facts instantiated at 255. -/
theorem C10_witness :
    ML99_NAT_MAX = 255 ∧
    ML99_inc ML99_NAT_MAX = 0 ∧ ML99_dec 0 = ML99_NAT_MAX ∧
    ML99_inc 255 = (255 + 1) % 256 ∧ ML99_dec 255 = (255 + 255) % 256 ∧
    ML99_inc 255 ≤ ML99_NAT_MAX ∧ ML99_dec 255 ≤ ML99_NAT_MAX :=
  C10_nat_bounded_wraparound 255 (by decide)

/-- Modelled from the spec: the next term after firing an `ML99_appl`
redex whose function and argument parts are fully reduced, or `none` when
the redex is stuck (undeclared arity specifier or a non-function).  Firing
an operation defers to a `callUneval` so that the expansion itself happens
in the next stage. -/
def applNext (env : Env) (fv av : List Atom) : Option Term :=
  match fv with
  | [.name s] =>
    match env s with
    | none => none
    | some o =>
      some (if o.arity = 1 then .callUneval s av
            else .v [closA (o.arity - 1) s av])
  | [.tup (.num a :: .name s :: captured)] =>
    some (if a = 1 then .callUneval s (captured ++ av)
          else .v [closA (a - 1) s (captured ++ av)])
  | _ => none

/-- Modelled from the spec: the next term after firing a dispatch redex
whose choice value and handler prefix are fully reduced: the handler
prefix is concatenated with the tag and invoked with the payload plus the
extra group. -/
def matchNext (cv pv extra : List Atom) : Option Term :=
  match cv, pv with
  | [.tup (.name tag :: data)], [.name pre] =>
    some (.callUneval (pre ++ tag) (data ++ extra))
  | _, _ => none

/-- Modelled from the spec: one rewrite step of the engine.  The left-most
still-reducible sub-term is reduced; a fully reduced term (or a stuck
residue, which the host compiler will reject) yields `none`, the terminal
marker that stops the expansion chain. -/
def stepF (env : Env) : Term → Option Term
  | .v _ => none
  | .fatal _ _ => none
  | .terms2 a b =>
    match stepF env a with
    | some a2 => some (.terms2 a2 b)
    | none =>
      match a with
      | .v as =>
        (match stepF env b with
         | some b2 => some (.terms2 (.v as) b2)
         | none =>
           match b with
           | .v bs => some (.v (as ++ bs))
           | _ => none)
      | _ => none
  | .call op a =>
    match stepF env a with
    | some a2 => some (.call op a2)
    | none =>
      match a with
      | .v as => some (.callUneval op as)
      | _ => none
  | .callUneval op as => (env op).map (fun o => o.impl as)
  | .appl f a =>
    match stepF env f with
    | some f2 => some (.appl f2 a)
    | none =>
      match f with
      | .v fv =>
        (match stepF env a with
         | some a2 => some (.appl (.v fv) a2)
         | none =>
           match a with
           | .v av => applNext env fv av
           | _ => none)
      | _ => none
  | .matchT c p =>
    match stepF env c with
    | some c2 => some (.matchT c2 p)
    | none =>
      match c with
      | .v cv =>
        (match stepF env p with
         | some p2 => some (.matchT (.v cv) p2)
         | none =>
           match p with
           | .v pv => matchNext cv pv []
           | _ => none)
      | _ => none
  | .matchWithArgsT c p e =>
    match stepF env c with
    | some c2 => some (.matchWithArgsT c2 p e)
    | none =>
      match c with
      | .v cv =>
        (match stepF env p with
         | some p2 => some (.matchWithArgsT (.v cv) p2 e)
         | none =>
           match p with
           | .v pv =>
             (match stepF env e with
              | some e2 => some (.matchWithArgsT (.v cv) (.v pv) e2)
              | none =>
                match e with
                | .v ev => matchNext cv pv ev
                | _ => none)
           | _ => none)
      | _ => none

/-- Modelled from the spec: the linear chain of expansion stages.  Each
stage applies one rewrite step and hands over to the next stage; a stage
that finds the term already reduced stops the chain early.  The result is
the final term together with the number of stages that actually fired. -/
def recStages (env : Env) : Nat → Term → Term × Nat
  | 0, t => (t, 0)
  | b + 1, t =>
    match stepF env t with
    | none => (t, 0)
    | some t2 =>
      let r := recStages env b t2
      (r.1, r.2 + 1)

/-- Modelled from the spec: `k` exact rewrite steps, or `none` when the
term gets stuck or fully reduced before `k` steps have fired. -/
def stepN (env : Env) : Nat → Term → Option Term
  | 0, t => some t
  | k + 1, t =>
    match stepF env t with
    | none => none
    | some t2 => stepN env k t2

theorem recStages_le (env : Env) : ∀ (b : Nat) (t : Term),
    (recStages env b t).2 ≤ b := by
  intro b
  induction b with
  | zero => intro t; simp [recStages]
  | succ n ih =>
    intro t
    simp only [recStages]
    cases hs : stepF env t with
    | none => simp
    | some t2 => simpa using ih t2

theorem recStages_exact (env : Env) : ∀ (k : Nat) (b : Nat) (t u : Term),
    k ≤ b → stepN env k t = some u → stepF env u = none →
    recStages env b t = (u, k) := by
  intro k
  induction k with
  | zero =>
    intro b t u _ hst hfix
    simp only [stepN] at hst
    cases hst
    cases b with
    | zero => rfl
    | succ n => simp [recStages, hfix]
  | succ n ih =>
    intro b t u hkb hst hfix
    simp only [stepN] at hst
    cases hs : stepF env t with
    | none => rw [hs] at hst; cases hst
    | some t2 =>
      rw [hs] at hst
      cases b with
      | zero => omega
      | succ b2 =>
        simp only [recStages, hs]
        rw [ih b2 t2 u (by omega) hst hfix]

/-- C6: the rewriting engine always terminates within its fixed budget of
`ML99_REC_MAX = 16384` expansion stages, and when the input reaches a fixed
point after `k ≤ ML99_REC_MAX` steps the stage chain stops early, executing
exactly `k` stages — the cost is proportional to the reduction work, never
to the budget ceiling. -/
theorem C6_bounded_early_stopping_chain (env : Env) (t : Term) :
    (recStages env ML99_REC_MAX t).2 ≤ ML99_REC_MAX ∧
    (∀ (k : Nat) (u : Term), k ≤ ML99_REC_MAX → stepN env k t = some u →
      stepF env u = none → recStages env ML99_REC_MAX t = (u, k)) := by
  exact ⟨recStages_le env ML99_REC_MAX t,
    fun k u hk hst hfix => recStages_exact env k ML99_REC_MAX t u hk hst hfix⟩

/-- C6 witness: a concrete term that reaches its fixed point after one
step makes the full-budget chain stop after exactly one stage. -/
theorem C6_witness :
    (recStages envEmpty ML99_REC_MAX
        (.terms2 (.v [.num 1]) (.v [.num 2]))).2 ≤ ML99_REC_MAX ∧
      recStages envEmpty ML99_REC_MAX (.terms2 (.v [.num 1]) (.v [.num 2])) =
        (.v [.num 1, .num 2], 1) := by
  refine ⟨(C6_bounded_early_stopping_chain envEmpty _).1, ?_⟩
  exact (C6_bounded_early_stopping_chain envEmpty
      (.terms2 (.v [.num 1]) (.v [.num 2]))).2 1 (.v [.num 1, .num 2])
    (by decide) rfl rfl

/-- Modelled from the spec: the engine's rewrite rules as a step relation.
Every congruence rule demands that everything to the left of the reduced
sub-term is already a literal, so only the left-most reducible sub-term may
be rewritten; redexes fire exactly as in `stepF`. -/
inductive Step (env : Env) : Term → Term → Prop where
  | terms2Left {a a2 b : Term} :
      Step env a a2 → Step env (.terms2 a b) (.terms2 a2 b)
  | terms2Right {as : List Atom} {b b2 : Term} :
      Step env b b2 → Step env (.terms2 (.v as) b) (.terms2 (.v as) b2)
  | terms2Join {as bs : List Atom} :
      Step env (.terms2 (.v as) (.v bs)) (.v (as ++ bs))
  | callArg {op : String} {a a2 : Term} :
      Step env a a2 → Step env (.call op a) (.call op a2)
  | callFire {op : String} {as : List Atom} :
      Step env (.call op (.v as)) (.callUneval op as)
  | unevalFire {op : String} {as : List Atom} {o : Op} :
      env op = some o → Step env (.callUneval op as) (o.impl as)
  | applLeft {f f2 a : Term} :
      Step env f f2 → Step env (.appl f a) (.appl f2 a)
  | applRight {fv : List Atom} {a a2 : Term} :
      Step env a a2 → Step env (.appl (.v fv) a) (.appl (.v fv) a2)
  | applFireName {s : String} {o : Op} {av : List Atom} :
      env s = some o →
      Step env (.appl (.v [.name s]) (.v av))
        (if o.arity = 1 then .callUneval s av
         else .v [closA (o.arity - 1) s av])
  | applFireClos {n : Nat} {s : String} {cap av : List Atom} :
      Step env (.appl (.v [.tup (.num n :: .name s :: cap)]) (.v av))
        (if n = 1 then .callUneval s (cap ++ av)
         else .v [closA (n - 1) s (cap ++ av)])
  | matchChoice {c c2 p : Term} :
      Step env c c2 → Step env (.matchT c p) (.matchT c2 p)
  | matchPre {cv : List Atom} {p p2 : Term} :
      Step env p p2 → Step env (.matchT (.v cv) p) (.matchT (.v cv) p2)
  | matchFire {tag pre : String} {data : List Atom} :
      Step env (.matchT (.v [.tup (.name tag :: data)]) (.v [.name pre]))
        (.callUneval (pre ++ tag) data)
  | matchWAChoice {c c2 p e : Term} :
      Step env c c2 → Step env (.matchWithArgsT c p e) (.matchWithArgsT c2 p e)
  | matchWAPre {cv : List Atom} {p p2 e : Term} :
      Step env p p2 →
      Step env (.matchWithArgsT (.v cv) p e) (.matchWithArgsT (.v cv) p2 e)
  | matchWAExtra {cv pv : List Atom} {e e2 : Term} :
      Step env e e2 →
      Step env (.matchWithArgsT (.v cv) (.v pv) e)
        (.matchWithArgsT (.v cv) (.v pv) e2)
  | matchWAFire {tag pre : String} {data extra : List Atom} :
      Step env
        (.matchWithArgsT (.v [.tup (.name tag :: data)]) (.v [.name pre])
          (.v extra))
        (.callUneval (pre ++ tag) (data ++ extra))

/-- Modelled from the spec: `n`-fold iteration of the step relation — the
engine passing through `n` rewrite stages. -/
inductive StepsN (env : Env) : Nat → Term → Term → Prop where
  | refl (t : Term) : StepsN env 0 t t
  | head {n : Nat} {t t2 u : Term} :
      Step env t t2 → StepsN env n t2 u → StepsN env (n + 1) t u

theorem step_det (env : Env) {t a : Term} (h1 : Step env t a) :
    ∀ b, Step env t b → a = b := by
  induction h1 with
  | terms2Left hs ih =>
    intro b h2
    cases h2 with
    | terms2Left hs2 => rw [ih _ hs2]
    | terms2Right hs2 => cases hs
    | terms2Join => cases hs
  | terms2Right hs ih =>
    intro b h2
    cases h2 with
    | terms2Left hs2 => cases hs2
    | terms2Right hs2 => rw [ih _ hs2]
    | terms2Join => cases hs
  | terms2Join =>
    intro b h2
    cases h2 with
    | terms2Left hs2 => cases hs2
    | terms2Right hs2 => cases hs2
    | terms2Join => rfl
  | callArg hs ih =>
    intro b h2
    cases h2 with
    | callArg hs2 => rw [ih _ hs2]
    | callFire => cases hs
  | callFire =>
    intro b h2
    cases h2 with
    | callArg hs2 => cases hs2
    | callFire => rfl
  | unevalFire ho =>
    intro b h2
    cases h2 with
    | unevalFire ho2 => simp [ho] at ho2; subst ho2; rfl
  | applLeft hs ih =>
    intro b h2
    cases h2 with
    | applLeft hs2 => rw [ih _ hs2]
    | applRight hs2 => cases hs
    | applFireName ho2 => cases hs
    | applFireClos => cases hs
  | applRight hs ih =>
    intro b h2
    cases h2 with
    | applLeft hs2 => cases hs2
    | applRight hs2 => rw [ih _ hs2]
    | applFireName ho2 => cases hs
    | applFireClos => cases hs
  | applFireName ho =>
    intro b h2
    cases h2 with
    | applLeft hs2 => cases hs2
    | applRight hs2 => cases hs2
    | applFireName ho2 => simp [ho] at ho2; subst ho2; rfl
  | applFireClos =>
    intro b h2
    cases h2 with
    | applLeft hs2 => cases hs2
    | applRight hs2 => cases hs2
    | applFireClos => rfl
  | matchChoice hs ih =>
    intro b h2
    cases h2 with
    | matchChoice hs2 => rw [ih _ hs2]
    | matchPre hs2 => cases hs
    | matchFire => cases hs
  | matchPre hs ih =>
    intro b h2
    cases h2 with
    | matchChoice hs2 => cases hs2
    | matchPre hs2 => rw [ih _ hs2]
    | matchFire => cases hs
  | matchFire =>
    intro b h2
    cases h2 with
    | matchChoice hs2 => cases hs2
    | matchPre hs2 => cases hs2
    | matchFire => rfl
  | matchWAChoice hs ih =>
    intro b h2
    cases h2 with
    | matchWAChoice hs2 => rw [ih _ hs2]
    | matchWAPre hs2 => cases hs
    | matchWAExtra hs2 => cases hs
    | matchWAFire => cases hs
  | matchWAPre hs ih =>
    intro b h2
    cases h2 with
    | matchWAChoice hs2 => cases hs2
    | matchWAPre hs2 => rw [ih _ hs2]
    | matchWAExtra hs2 => cases hs
    | matchWAFire => cases hs
  | matchWAExtra hs ih =>
    intro b h2
    cases h2 with
    | matchWAChoice hs2 => cases hs2
    | matchWAPre hs2 => cases hs2
    | matchWAExtra hs2 => rw [ih _ hs2]
    | matchWAFire => cases hs
  | matchWAFire =>
    intro b h2
    cases h2 with
    | matchWAChoice hs2 => cases hs2
    | matchWAPre hs2 => cases hs2
    | matchWAExtra hs2 => cases hs2
    | matchWAFire => rfl

theorem stepsN_det (env : Env) {n : Nat} {t a : Term} (h1 : StepsN env n t a) :
    ∀ b, StepsN env n t b → a = b := by
  induction h1 with
  | refl t =>
    intro b h2
    cases h2
    rfl
  | head hs hrest ih =>
    intro b h2
    cases h2 with
    | head hs2 hrest2 =>
      have heq := step_det env hs _ hs2
      subst heq
      exact ih _ hrest2

/-- C7: rewriting is deterministic — at every step only the left-most
reducible sub-term may be rewritten, so a term never steps to two different
terms, and two evaluations of the same input pass through identical stage
sequences to identical outputs. -/
theorem C7_rewriting_deterministic (env : Env) :
    (∀ t a b : Term, Step env t a → Step env t b → a = b) ∧
    (∀ (n : Nat) (t a b : Term), StepsN env n t a → StepsN env n t b → a = b) :=
  ⟨fun _ _ _ h1 h2 => step_det env h1 _ h2,
   fun _ _ _ _ h1 h2 => stepsN_det env h1 _ h2⟩

/-- C7 witness: a concrete one-stage reduction, performed twice, reaches
the same term. -/
theorem C7_witness :
    (Term.v [Atom.num 1, Atom.num 2] : Term) = Term.v [Atom.num 1, Atom.num 2] :=
  (C7_rewriting_deterministic envEmpty).1
    (.terms2 (.v [.num 1]) (.v [.num 2])) _ _ Step.terms2Join Step.terms2Join

/-- Constant `BOXED_NUMBER_COUNT` from stub.c. -/
def BOXED_NUMBER_COUNT : Nat := 128

/-- Modelled from the spec: the empty cons-list value; a tag with no
payload carries the reserved empty marker. -/
def nilV : Atom := .tup [.name ("nil"), .name ("~")]

/-- Modelled from the spec: a cons cell of the list library. -/
def consV (x xs : Atom) : Atom := .tup [.name ("cons"), x, xs]

/-- Modelled from the spec: the cons-list value holding the given items. -/
def listVal : List Atom → Atom
  | [] => nilV
  | x :: xs => consV x (listVal xs)

/-- The output token group that `BOXED_NUMBER_IMPL(_n, i)` from stub.c
emits for index `i` (the `calloc` declaration of `_i`). -/
def boxedDecl (i : Nat) : Atom := .tup [.name ("decl"), .num i]

/-- Operation `BOXED_NUMBER` from stub.c (arity 2): ignores the mapped
element and produces the boxed-number declaration for the index. -/
def boxedNumberImpl : List Atom → Term
  | [_x, .num i] => .v [boxedDecl i]
  | _ => .fatal ("BOXED_NUMBER") ("expected an element and an index")

/-- Modelled from the spec: the list library's cons builder. -/
def consImpl : List Atom → Term
  | [x, xs] => .v [consV x xs]
  | _ => .fatal ("ML99_cons") ("expected two arguments")

/-- Modelled from the spec: `ML99_listReplicate(n, item)` computes a list
of length `n` with each element `item`. -/
def listReplicateImpl : List Atom → Term
  | [.num 0, _item] => .v [nilV]
  | [.num (n + 1), item] =>
    .call ("ML99_cons")
      (.terms2 (.v [item]) (.callUneval ("ML99_listReplicate") [.num n, item]))
  | _ => .fatal ("ML99_listReplicate") ("expected a length and an item")

/-- Modelled from the spec: `ML99_listMapI(f, list)` maps `f` over the list
together with each element's index, starting from 0. -/
def listMapIImpl : List Atom → Term
  | [f, l] => .callUneval ("ML99_listMapIAux") [f, .num 0, l]
  | _ => .fatal ("ML99_listMapI") ("expected a function and a list")

/-- Modelled from the spec: the indexed worker behind `ML99_listMapI`:
applies `f` to the head and the current index (two `ML99_appl` argument
groups, per the arity-2 convention of stub.c) and recurses with the index
incremented. -/
def listMapIAuxImpl : List Atom → Term
  | [_f, .num _i, .tup [.name ("nil"), _pad]] => .v [nilV]
  | [f, .num i, .tup [.name ("cons"), x, xs]] =>
    .call ("ML99_cons")
      (.terms2 (.appl (.appl (.v [f]) (.v [x])) (.v [.num i]))
        (.callUneval ("ML99_listMapIAux") [f, .num (i + 1), xs]))
  | _ => .fatal ("ML99_listMapIAux") ("expected a function, an index and a list")

/-- Modelled from the spec: `ML99_LIST_EVAL`'s unwrapping — a cons-list's
items spliced out as a flat juxtaposed sequence, in list order. -/
def listUnwrapImpl : List Atom → Term
  | [.tup [.name ("nil"), _pad]] => .v []
  | [.tup [.name ("cons"), x, xs]] =>
    .terms2 (.v [x]) (.callUneval ("ML99_listUnwrap") [xs])
  | _ => .fatal ("ML99_listUnwrap") ("expected a list")

/-- The operation table used by stub.c: the boxed-number generator plus the
list library operations it maps with. -/
def env9 : Env := fun s =>
  if s = ("BOXED_NUMBER") then some ⟨2, boxedNumberImpl⟩
  else if s = ("ML99_cons") then some ⟨2, consImpl⟩
  else if s = ("ML99_listReplicate") then some ⟨2, listReplicateImpl⟩
  else if s = ("ML99_listMapI") then some ⟨2, listMapIImpl⟩
  else if s = ("ML99_listMapIAux") then some ⟨3, listMapIAuxImpl⟩
  else if s = ("ML99_listUnwrap") then some ⟨1, listUnwrapImpl⟩
  else none

/-- The stub.c program
`ML99_LIST_EVAL(ML99_listMapI(v(BOXED_NUMBER), ML99_listReplicate(v(n), v(0))))`
for a replication count `n`. -/
def boxedProgram (n : Nat) : Term :=
  .call ("ML99_listUnwrap")
    (.call ("ML99_listMapI")
      (.terms2 (.v [.name ("BOXED_NUMBER")])
        (.call ("ML99_listReplicate") (.terms2 (.v [.num n]) (.v [.num 0])))))

set_option maxRecDepth 100000

theorem boxedProgram_eval :
    evalT env9 ML99_REC_MAX (boxedProgram BOXED_NUMBER_COUNT) =
      .ok ((List.range BOXED_NUMBER_COUNT).map boxedDecl) := by
  rfl

/-- C9 counterexample: the stub replicates `BOXED_NUMBER_COUNT = 128`
elements, not 130 — its boxed-number mapping terminates within the budget
with exactly 128 outputs, and 128 is not 130. -/
theorem C9_counterexample :
    evalT env9 ML99_REC_MAX (boxedProgram BOXED_NUMBER_COUNT) =
        .ok ((List.range 128).map boxedDecl) ∧
      ((List.range 128).map boxedDecl).length = 128 ∧
      ¬ ((List.range 128).map boxedDecl).length = 130 := by
  refine ⟨boxedProgram_eval, by simp, by simp⟩

/-- C9 (amended to the stub's element count): the 128-element repeated
invocation of the side-effect-free boxed-number generator — mapping it with
its index over a 128-element replicated list, as stub.c does — terminates
within the expansion budget and produces exactly 128 outputs, emitted in
index order. -/
theorem C9_boxed_number_mapping :
    evalT env9 ML99_REC_MAX (boxedProgram BOXED_NUMBER_COUNT) =
        .ok ((List.range BOXED_NUMBER_COUNT).map boxedDecl) ∧
      ((List.range BOXED_NUMBER_COUNT).map boxedDecl).length = BOXED_NUMBER_COUNT := by
  refine ⟨boxedProgram_eval, by simp⟩

end Metalang99
